import Mathlib

/-!
Verification of the sliding-window epitope inference engine of the
`epipred` repository (`app/model_predictor.py`, loop of `app/app.py`).

The Python code is shallowly embedded: strings become `List Char`,
floats become `ℚ`, the trained model becomes an explicit argument
(a function from a batch of encoded windows to probability vectors,
or an error), and the mutable predictor object becomes an explicitly
threaded `Predictor` state record.
-/

set_option maxRecDepth 10000

/-- A protein sequence, modelling a Python `str` as a list of characters. -/
abbrev PSeq := List Char

/-- The per-instance configuration of `EpitopePredictor.__init__`:
`self.window_size`, `self.step_size`, `self.confidence_threshold`.
(The loaded model is passed separately as an explicit function.) -/
structure Predictor where
  window_size : Nat
  step_size : Nat
  confidence_threshold : ℚ
deriving DecidableEq, Repr

/-- The defaults set in `__init__`: window 20, step 1, threshold 0.5. -/
def default_predictor : Predictor :=
  { window_size := 20, step_size := 1, confidence_threshold := mkRat 1 2 }

/-- The `amino_acid_to_num` dictionary of `__init__`: the 20 canonical
amino acids map to 1..20 and `X` (unknown) maps to 0. -/
def amino_acid_to_num : List (Char × Nat) :=
  [('A', 1), ('C', 2), ('D', 3), ('E', 4), ('F', 5), ('G', 6), ('H', 7), ('I', 8),
   ('K', 9), ('L', 10), ('M', 11), ('N', 12), ('P', 13), ('Q', 14), ('R', 15),
   ('S', 16), ('T', 17), ('V', 18), ('W', 19), ('Y', 20), ('X', 0)]

/-- Python `d.get(k, default)` on the association-list model of a dict. -/
def dict_get (d : List (Char × Nat)) (k : Char) (dflt : Nat) : Nat :=
  match d.find? (fun p => p.1 == k) with
  | some p => p.2
  | none => dflt

/-- Python `k in d` (key membership) on the association-list model of a dict. -/
def dict_mem (d : List (Char × Nat)) (k : Char) : Bool :=
  d.any (fun p => p.1 == k)

/-- `encode_sequence`: `[self.amino_acid_to_num.get(aa.upper(), 0) for aa in sequence]`. -/
def encode_sequence (sequence : PSeq) : List Nat :=
  sequence.map (fun aa => dict_get amino_acid_to_num aa.toUpper 0)

/-- The four classes of `class_mapping` in `__init__`. -/
inductive EClass where
  | B_cell_negative
  | B_cell_positive
  | T_cell_MHC_negative
  | T_cell_MHC_positive
deriving DecidableEq, Repr

/-- `self.idx_to_class`, the reverse of
`class_mapping = \x7bB_cell_negative: 0, B_cell_positive: 1,
T_cell_MHC_negative: 2, T_cell_MHC_positive: 3\x7d`;
unmapped indices are a Python `KeyError`, modelled by `none`. -/
def idx_to_class (n : Nat) : Option EClass :=
  match n with
  | 0 => some EClass.B_cell_negative
  | 1 => some EClass.B_cell_positive
  | 2 => some EClass.T_cell_MHC_negative
  | 3 => some EClass.T_cell_MHC_positive
  | _ => none

/-- Scan underlying `np.argmax`/`np.max`: carries the index of the first
maximal element seen so far together with its value; a later element
replaces the current best only when strictly greater, exactly as
`np.argmax` keeps the first occurrence of the maximum. -/
def np_scan (i : Nat) (bi : Nat) (bv : ℚ) : List ℚ → Nat × ℚ
  | [] => (bi, bv)
  | x :: xs => if bv < x then np_scan (i + 1) i x xs else np_scan (i + 1) bi bv xs

/-- `np.argmax(probs)`: index of the first maximal entry; `none` on an
empty vector (where numpy raises). -/
def np_argmax (l : List ℚ) : Option Nat :=
  match l with
  | [] => none
  | x :: xs => some (np_scan 1 0 x xs).1

/-- `np.max(probs)`: the maximal entry; `none` on an empty vector. -/
def np_max (l : List ℚ) : Option ℚ :=
  match l with
  | [] => none
  | x :: xs => some (np_scan 1 0 x xs).2

/-- Python slicing `sequence[a:b]` for non-negative in-range bounds
(with the same clamping behaviour for `b` past the end). -/
def py_slice (s : PSeq) (a b : Nat) : PSeq :=
  (s.take b).drop a

/-- `Nat.digitChar`-based decimal printing worker, fuelled so that it is
structurally recursive (mirrors `str(n)` for the window positions). -/
def to_digits_core (fuel : Nat) (n : Nat) (acc : List Char) : List Char :=
  match fuel with
  | 0 => acc
  | fuel + 1 =>
    if n < 10 then Nat.digitChar n :: acc
    else to_digits_core fuel (n / 10) (Nat.digitChar (n % 10) :: acc)

/-- Python `str(n)` for a natural number, as a list of decimal digits. -/
def nat_str (n : Nat) : List Char :=
  to_digits_core (n + 1) n []

/-- The f-string `f"\x7bstart_pos+1\x7d-\x7bend_pos\x7d"` building the 1-based
display range of a window. -/
def pos_range_str (start_pos end_pos : Nat) : List Char :=
  nat_str (start_pos + 1) ++ '-' :: nat_str end_pos

/-- One epitope tuple `(sub_seq, float(confidence), pos_range)` as appended
to `b_cell_epitopes` / `t_cell_epitopes`. -/
structure Epitope where
  epitope : PSeq
  confidence : ℚ
  pos_range : List Char
deriving DecidableEq, Repr

/-- Python `range(0, stop, step)` for `step >= 1`, as a list of naturals. -/
def py_range (stop step : Nat) : List Nat :=
  (List.range ((stop + step - 1) / step)).map (fun k => k * step)

/-- The window enumeration loop of `sliding_window_prediction`
(line `for i in range(0, len(sequence) - self.window_size + 1, self.step_size)`),
collecting `positions`: the pairs `(i, i + self.window_size)`. -/
def window_positions (len win step : Nat) : List (Nat × Nat) :=
  (py_range (len - win + 1) step).map (fun i => (i, i + win))

/-- The per-window postprocessing loop of `sliding_window_prediction`
(lines 185-198): for each `(probs, (start_pos, end_pos))` compute
`np.argmax`/`np.max`, look the class name up in `idx_to_class` (a missing
key or an empty probability vector raises, modelled as `Except.error`),
and above the threshold route the call into the B-cell or T-cell list. -/
def process_predictions (thr : ℚ) (sequence : PSeq) :
    List (List ℚ × (Nat × Nat)) → Except String (List Epitope × List Epitope)
  | [] => Except.ok ([], [])
  | (probs, (start_pos, end_pos)) :: rest =>
    match np_argmax probs, np_max probs with
    | some predicted_class, some confidence =>
      match idx_to_class predicted_class with
      | none => Except.error "KeyError"
      | some predicted_label =>
        match process_predictions thr sequence rest with
        | Except.error e => Except.error e
        | Except.ok (bs, ts) =>
          if thr ≤ confidence then
            let sub_seq := py_slice sequence start_pos end_pos
            let ep : Epitope := ⟨sub_seq, confidence, pos_range_str start_pos end_pos⟩
            match predicted_label with
            | EClass.B_cell_positive => Except.ok (ep :: bs, ts)
            | EClass.T_cell_MHC_positive => Except.ok (bs, ep :: ts)
            | _ => Except.ok (bs, ts)
          else Except.ok (bs, ts)
    | _, _ => Except.error "argmax of an empty sequence"

/-- The batch classifier port: `self.model.predict` on a batch of encoded
windows, returning one probability vector per window or an error. -/
abbrev Model := List (List Nat) → Except String (List (List ℚ))

/-- `sliding_window_prediction(self, sequence)`: guard short sequences,
enumerate windows, encode them, classify the whole batch at once, then
postprocess.  An error of the classifier (or of the postprocessing loop)
is re-raised, i.e. propagated as `Except.error`. -/
def sliding_window_prediction (model : Model) (P : Predictor) (sequence : PSeq) :
    Except String (List Epitope × List Epitope) :=
  if sequence.length < P.window_size then Except.ok ([], [])
  else
    let positions := window_positions sequence.length P.window_size P.step_size
    let subseq_list := positions.map (fun p => encode_sequence (py_slice sequence p.1 p.2))
    if subseq_list.isEmpty then Except.ok ([], [])
    else
      match model subseq_list with
      | Except.error e => Except.error e
      | Except.ok predicted_probs =>
        process_predictions P.confidence_threshold sequence (predicted_probs.zip positions)


/-- Decidable equality of results, used to evaluate the embedding on
concrete inputs. -/
instance exceptDecEq [DecidableEq e] [DecidableEq a] : DecidableEq (Except e a) :=
  fun x y =>
    match x, y with
    | Except.error u, Except.error v => decidable_of_iff (u = v) (by simp)
    | Except.ok u, Except.ok v => decidable_of_iff (u = v) (by simp)
    | Except.error _, Except.ok _ => isFalse (by simp)
    | Except.ok _, Except.error _ => isFalse (by simp)

/-- Stable insertion of one element: `x` is placed before the first `y`
with `le x y`; on ties (`le` both ways) earlier elements stay first. -/
def insort (le : α → α → Bool) (x : α) : List α → List α
  | [] => [x]
  | y :: ys => if le x y then x :: y :: ys else y :: insort le x ys

/-- A stable sort (insertion sort).  Python `list.sort` is a stable sort,
so as a function it agrees with any stable sort of the same comparison;
with `le x y := y.confidence <= x.confidence` this is exactly
`epitopes.sort(key=lambda x: x[1], reverse=True)`: descending confidence,
ties kept in original order. -/
def stable_sort (le : α → α → Bool) : List α → List α
  | [] => []
  | x :: xs => insort le x (stable_sort le xs)

/-- Comparison used by `predict_epitopes`'s two `sort` calls:
descending by the confidence component. -/
def conf_desc (x y : Epitope) : Bool :=
  decide (y.confidence ≤ x.confidence)

/-- The two sort statements of `predict_epitopes` (lines 237-238). -/
def sort_epitopes (l : List Epitope) : List Epitope :=
  stable_sort conf_desc l

/-- The cleaning step of `predict_epitopes` (line 228):
`''.join(c.upper() for c in sequence if c.upper() in self.amino_acid_to_num)`.
Characters whose uppercased form is not a key of the dictionary are
dropped; kept characters are uppercased. -/
def clean_sequence (sequence : PSeq) : PSeq :=
  sequence.filterMap (fun c =>
    if dict_mem amino_acid_to_num c.toUpper then some c.toUpper else none)

/-- The predictor state in force while `predict_epitopes` runs
(lines 221-223): a per-call threshold override is written into the shared
field `self.confidence_threshold` before prediction starts. -/
def predict_epitopes_call_state (P : Predictor) (threshold : Option ℚ) : Predictor :=
  match threshold with
  | none => P
  | some t => { P with confidence_threshold := t }

/-- `predict_epitopes(self, sequence, threshold=None)`: apply the optional
threshold override to the shared state, clean the sequence, run the
sliding-window prediction, sort both buckets by descending confidence,
and in the `finally` block restore the original threshold (also when an
error propagates).  Returns the result together with the predictor state
after the call. -/
def predict_epitopes (model : Model) (P : Predictor) (sequence : PSeq)
    (threshold : Option ℚ) :
    Except String (List Epitope × List Epitope) × Predictor :=
  let P1 := predict_epitopes_call_state P threshold
  let restored : Predictor :=
    match threshold with
    | none => P1
    | some _ => { P1 with confidence_threshold := P.confidence_threshold }
  match sliding_window_prediction model P1 (clean_sequence sequence) with
  | Except.error e => (Except.error e, restored)
  | Except.ok (b_cell_epitopes, t_cell_epitopes) =>
    (Except.ok (sort_epitopes b_cell_epitopes, sort_epitopes t_cell_epitopes), restored)

/-- `set_confidence_threshold(self, threshold)`: accept a value in
`[0, 1]`, otherwise raise `ValueError` and leave the state unchanged. -/
def set_confidence_threshold (P : Predictor) (threshold : ℚ) :
    Except String Predictor :=
  if 0 ≤ threshold ∧ threshold ≤ 1 then
    Except.ok { P with confidence_threshold := threshold }
  else Except.error "Threshold must be between 0.0 and 1.0"

/-- Python `s.split(sep)` for a single-character separator, on the
list-of-characters model of strings. -/
def split_on_char (sep : Char) (s : List Char) : List (List Char) :=
  s.foldr
    (fun c acc =>
      if c = sep then [] :: acc
      else
        match acc with
        | [] => [[c]]
        | a :: as => (c :: a) :: as)
    [[]]

/-- The numeric value of a decimal digit character. -/
def digit_val (c : Char) : Nat :=
  c.toNat - '0'.toNat

/-- Python `int(s)` restricted to non-empty all-digit strings (other
strings raise `ValueError`, modelled by `none`). -/
def parse_int (s : List Char) : Option Nat :=
  if s ≠ [] ∧ s.all Char.isDigit then
    some (s.foldl (fun a c => a * 10 + digit_val c) 0)
  else none

/-- `start, end = map(int, pos_range.split('-'))` of `get_sequence_markup`:
succeeds only when the split yields exactly two parseable parts (anything
else raises in Python, modelled by `none`). -/
def parse_pos_range (s : List Char) : Option (Nat × Nat) :=
  match split_on_char '-' s with
  | [a, b] =>
    match parse_int a, parse_int b with
    | some x, some y => some (x, y)
    | _, _ => none
  | _ => none

/-- The marking loop body of `get_sequence_markup`
(`for i in range(start, min(end + 1, len(markup))): markup[i] = marker`):
overwrite positions `a <= i < b` of the list with the marker. -/
def write_range (l : List Char) (a b : Nat) (m : Char) : List Char :=
  match l with
  | [] => []
  | c :: cs => (if a = 0 ∧ 0 < b then m else c) :: write_range cs (a - 1) (b - 1) m

/-- The epitope loop of `get_sequence_markup` (lines 262-270): parse each
call's `pos_range`, convert to 0-based indices and overwrite the covered
positions (clamped to the markup length) with the marker.  For 1-based
ranges (`1 <= start`, as produced by the selector) the bounds
`start - 1` and `min end (length markup)` coincide with Python's
`start - 1` and `min((end - 1) + 1, len(markup))`; a `start` of 0 would
use Python negative indexing and cannot come from an accepted call. -/
def markup_loop (marker : Char) : List Epitope → List Char → Except String (List Char)
  | [], markup => Except.ok markup
  | ep :: rest, markup =>
    match parse_pos_range ep.pos_range with
    | none => Except.error "ValueError"
    | some (s, e) =>
      markup_loop marker rest (write_range markup (s - 1) (min e markup.length) marker)

/-- `get_sequence_markup(self, sequence, epitopes, epitope_type)`: start
from an all-dots string of the sequence's length and mark every position
covered by a call, with `E` for the B-cell type and `T` otherwise. -/
def get_sequence_markup (sequence : PSeq) (epitopes : List Epitope)
    (epitope_type : List Char) : Except String (List Char) :=
  let marker := if epitope_type = ['B', '-', 'c', 'e', 'l', 'l'] then 'E' else 'T'
  markup_loop marker epitopes (sequence.map (fun _ => '.'))

/-- The per-sequence prediction loop of `app.predict` (app.py lines
197-221): each named sequence is predicted with the shared predictor and
no threshold override; a successful prediction is recorded in `results`,
a failure appends the name to `failed_sequences` and the loop continues
with the next sequence. -/
def predict_loop (model : Model) (P : Predictor) :
    List (List Char × PSeq) →
    List (List Char × (PSeq × List Epitope × List Epitope)) × List (List Char)
  | [] => ([], [])
  | (seq_name, s) :: rest =>
    match predict_epitopes model P s none with
    | (Except.ok (bs, ts), P') =>
      let r := predict_loop model P' rest
      ((seq_name, (s, bs, ts)) :: r.1, r.2)
    | (Except.error _, P') =>
      let r := predict_loop model P' rest
      (r.1, seq_name :: r.2)

/-! ### Specification-side definitions -/

/-- Specification-side predicate: the decision rule of the selector for a
single window row, for a given positive class.  `accepts cls thr row` holds
exactly when the arg-max class of the row's probability vector is `cls` and
the maximal probability reaches the threshold. -/
def accepts (cls : EClass) (thr : ℚ) (row : List ℚ × (Nat × Nat)) : Bool :=
  match np_argmax row.1, np_max row.1 with
  | some k, some c => decide (idx_to_class k = some cls) && decide (thr ≤ c)
  | _, _ => false

/-- Specification-side constructor: the epitope tuple the selector emits
for a window row. -/
def mk_call (sequence : PSeq) (row : List ℚ × (Nat × Nat)) : Epitope :=
  ⟨py_slice sequence row.2.1 row.2.2, (np_max row.1).getD 0,
    pos_range_str row.2.1 row.2.2⟩

/-- A row on which the selection loop does not raise: non-empty
probability vector whose arg-max index is a key of `idx_to_class`. -/
def row_ok (row : List ℚ × (Nat × Nat)) : Prop :=
  ∃ k c lbl, np_argmax row.1 = some k ∧ np_max row.1 = some c ∧
    idx_to_class k = some lbl

/-- Positions covered by the 1-based inclusive range of some call in the
list (after parsing its `pos_range`), in 0-based coordinates. -/
def covered (eps : List Epitope) (i : Nat) : Prop :=
  ∃ ep ∈ eps, ∃ a b : Nat, parse_pos_range ep.pos_range = some (a, b) ∧
    a - 1 ≤ i ∧ i < b

/-- The 20 canonical amino-acid letters (the dictionary keys except `X`). -/
def canonical_amino_acids : List Char :=
  ['A', 'C', 'D', 'E', 'F', 'G', 'H', 'I', 'K', 'L',
   'M', 'N', 'P', 'Q', 'R', 'S', 'T', 'V', 'W', 'Y']

/-- The 1-based start offset encoded in a call's position range. -/
def start_of (ep : Epitope) : Nat :=
  ((parse_pos_range ep.pos_range).getD (0, 0)).1

/-! ### Decimal printing and parsing -/

theorem to_digits_core_succ (fuel n : Nat) (acc : List Char) :
    to_digits_core (fuel + 1) n acc =
      if n < 10 then Nat.digitChar n :: acc
      else to_digits_core fuel (n / 10) (Nat.digitChar (n % 10) :: acc) := rfl

theorem to_digits_core_append (fuel : Nat) :
    ∀ n acc, n < fuel →
      to_digits_core fuel n acc = to_digits_core fuel n [] ++ acc := by
  induction fuel with
  | zero => intro n acc h; omega
  | succ fuel ih =>
    intro n acc h
    rw [to_digits_core_succ, to_digits_core_succ]
    by_cases h10 : n < 10
    · simp [h10]
    · have hdiv : n / 10 < fuel := by omega
      rw [if_neg h10, if_neg h10,
        ih (n / 10) (Nat.digitChar (n % 10) :: acc) hdiv,
        ih (n / 10) [Nat.digitChar (n % 10)] hdiv, List.append_assoc]
      simp

theorem to_digits_core_fuel (f₁ : Nat) :
    ∀ f₂ n, n < f₁ → n < f₂ →
      to_digits_core f₁ n [] = to_digits_core f₂ n [] := by
  induction f₁ with
  | zero => intro f₂ n h; omega
  | succ f₁ ih =>
    intro f₂ n h₁ h₂
    match f₂, h₂ with
    | f₂ + 1, h₂ =>
      rw [to_digits_core_succ, to_digits_core_succ]
      by_cases h10 : n < 10
      · rw [if_pos h10, if_pos h10]
      · have hd₁ : n / 10 < f₁ := by omega
        have hd₂ : n / 10 < f₂ := by omega
        rw [if_neg h10, if_neg h10,
          to_digits_core_append f₁ _ _ hd₁, to_digits_core_append f₂ _ _ hd₂,
          ih f₂ (n / 10) hd₁ hd₂]

theorem nat_str_lt10 (n : Nat) (h : n < 10) : nat_str n = [Nat.digitChar n] := by
  rw [nat_str, to_digits_core_succ, if_pos h]

theorem nat_str_ge10 (n : Nat) (h : 10 ≤ n) :
    nat_str n = nat_str (n / 10) ++ [Nat.digitChar (n % 10)] := by
  have h10 : ¬ n < 10 := by omega
  rw [nat_str, to_digits_core_succ, if_neg h10,
    to_digits_core_append n (n / 10) _ (by omega), nat_str,
    to_digits_core_fuel n (n / 10 + 1) (n / 10) (by omega) (by omega)]

theorem digit_val_digitChar (m : Nat) (h : m < 10) :
    digit_val (Nat.digitChar m) = m := by
  interval_cases m <;> rfl

theorem digitChar_isDigit (m : Nat) (h : m < 10) :
    (Nat.digitChar m).isDigit = true := by
  interval_cases m <;> rfl

theorem nat_str_isDigit (n : Nat) : ∀ c ∈ nat_str n, c.isDigit = true := by
  induction n using Nat.strong_induction_on with
  | _ n ih =>
    intro c hc
    by_cases h10 : n < 10
    · rw [nat_str_lt10 n h10] at hc
      simp only [List.mem_singleton] at hc
      exact hc ▸ digitChar_isDigit n h10
    · rw [nat_str_ge10 n (by omega)] at hc
      rcases List.mem_append.mp hc with h | h
      · exact ih (n / 10) (Nat.div_lt_self (by omega) (by omega)) c h
      · simp only [List.mem_singleton] at h
        exact h ▸ digitChar_isDigit (n % 10) (Nat.mod_lt n (by omega))

theorem nat_str_ne_nil (n : Nat) : nat_str n ≠ [] := by
  by_cases h10 : n < 10
  · rw [nat_str_lt10 n h10]; simp
  · rw [nat_str_ge10 n (by omega)]; simp

theorem nat_str_not_dash (n : Nat) : '-' ∉ nat_str n := by
  intro h
  have := nat_str_isDigit n '-' h
  simp [Char.isDigit] at this

theorem parse_int_nat_str (n : Nat) : parse_int (nat_str n) = some n := by
  have key : ∀ m : Nat, (nat_str m).foldl (fun a c => a * 10 + digit_val c) 0 = m := by
    intro m
    induction m using Nat.strong_induction_on with
    | _ m ih =>
      by_cases h10 : m < 10
      · rw [nat_str_lt10 m h10]
        simp [digit_val_digitChar m h10]
      · rw [nat_str_ge10 m (by omega), List.foldl_append]
        rw [ih (m / 10) (Nat.div_lt_self (by omega) (by omega))]
        simp only [List.foldl_cons, List.foldl_nil]
        rw [digit_val_digitChar (m % 10) (Nat.mod_lt m (by omega))]
        omega
  unfold parse_int
  rw [if_pos ⟨nat_str_ne_nil n, by simpa [List.all_eq_true] using nat_str_isDigit n⟩]
  rw [key n]

theorem split_on_char_cons (sep c : Char) (s : List Char) :
    split_on_char sep (c :: s) =
      if c = sep then [] :: split_on_char sep s
      else
        match split_on_char sep s with
        | [] => [[c]]
        | a :: as => (c :: a) :: as := rfl

theorem split_on_char_no_sep (sep : Char) :
    ∀ s : List Char, sep ∉ s → split_on_char sep s = [s] := by
  intro s
  induction s with
  | nil => intro _; rfl
  | cons c cs ih =>
    intro h
    have hc : c ≠ sep := fun hcs => h (hcs ▸ List.mem_cons_self c cs)
    have hcs : sep ∉ cs := fun hm => h (List.mem_cons_of_mem c hm)
    rw [split_on_char_cons, if_neg hc, ih hcs]

theorem split_on_char_pair (sep : Char) (s₁ s₂ : List Char)
    (h₁ : sep ∉ s₁) (h₂ : sep ∉ s₂) :
    split_on_char sep (s₁ ++ sep :: s₂) = [s₁, s₂] := by
  induction s₁ with
  | nil =>
    rw [List.nil_append, split_on_char_cons, if_pos rfl,
      split_on_char_no_sep sep s₂ h₂]
  | cons c cs ih =>
    have hc : c ≠ sep := fun hcs => h₁ (hcs ▸ List.mem_cons_self c cs)
    have hcs : sep ∉ cs := fun hm => h₁ (List.mem_cons_of_mem c hm)
    rw [List.cons_append, split_on_char_cons, if_neg hc, ih hcs]

theorem parse_pos_range_str (s e : Nat) :
    parse_pos_range (pos_range_str s e) = some (s + 1, e) := by
  unfold parse_pos_range pos_range_str
  rw [split_on_char_pair '-' _ _ (nat_str_not_dash (s + 1)) (nat_str_not_dash e)]
  simp [parse_int_nat_str]

theorem nat_str_injective (m n : Nat) (h : nat_str m = nat_str n) : m = n := by
  have := parse_int_nat_str m
  rw [h, parse_int_nat_str n] at this
  exact (Option.some_injective _ this).symm

/-! ### Properties of the argmax scan -/

theorem np_scan_snd (l : List ℚ) :
    ∀ i bi bv, (np_scan i bi bv l).2 = l.foldl max bv := by
  induction l with
  | nil => intro i bi bv; rfl
  | cons x xs ih =>
    intro i bi bv
    by_cases h : bv < x
    · rw [np_scan, if_pos h, ih, List.foldl_cons, max_eq_right (le_of_lt h)]
    · rw [np_scan, if_neg h, ih, List.foldl_cons, max_eq_left (le_of_not_lt h)]

theorem np_scan_index (l : List ℚ) :
    ∀ i bi bv,
      (np_scan i bi bv l).1 = bi ∧ (np_scan i bi bv l).2 = bv ∨
      ∃ j, j < l.length ∧ (np_scan i bi bv l).1 = i + j ∧
        l.get? j = some (np_scan i bi bv l).2 := by
  induction l with
  | nil => intro i bi bv; exact Or.inl ⟨rfl, rfl⟩
  | cons x xs ih =>
    intro i bi bv
    by_cases h : bv < x
    · rw [np_scan, if_pos h]
      rcases ih (i + 1) i x with ⟨h1, h2⟩ | ⟨j, hj, h1, h2⟩
      · exact Or.inr ⟨0, by simp, by simpa using h1, by simp [h2]⟩
      · exact Or.inr ⟨j + 1, by simp; omega, by omega, by simpa using h2⟩
    · rw [np_scan, if_neg h]
      rcases ih (i + 1) bi bv with ⟨h1, h2⟩ | ⟨j, hj, h1, h2⟩
      · exact Or.inl ⟨h1, h2⟩
      · exact Or.inr ⟨j + 1, by simp; omega, by omega, by simpa using h2⟩

theorem np_argmax_get (l : List ℚ) (k : Nat) (c : ℚ)
    (hk : np_argmax l = some k) (hc : np_max l = some c) :
    l.get? k = some c := by
  match l with
  | [] => simp [np_argmax] at hk
  | x :: xs =>
    simp only [np_argmax, Option.some_inj] at hk
    simp only [np_max, Option.some_inj] at hc
    rcases np_scan_index xs 1 0 x with ⟨h1, h2⟩ | ⟨j, hj, h1, h2⟩
    · rw [← hk, h1, ← hc, h2]; rfl
    · rw [← hk, h1, ← hc, Nat.add_comm 1 j]
      simpa using h2

theorem np_argmax_lt_length (l : List ℚ) (k : Nat)
    (hk : np_argmax l = some k) : k < l.length := by
  match l with
  | [] => simp [np_argmax] at hk
  | x :: xs =>
    simp only [np_argmax, Option.some_inj] at hk
    rcases np_scan_index xs 1 0 x with ⟨h1, _⟩ | ⟨j, hj, h1, _⟩
    · rw [← hk, h1]; simp
    · rw [← hk, h1]; simp; omega

theorem foldl_max_bounds (l : List ℚ) :
    ∀ bv : ℚ, bv ≤ l.foldl max bv ∧ ∀ x ∈ l, x ≤ l.foldl max bv := by
  induction l with
  | nil => intro bv; exact ⟨le_refl bv, by simp⟩
  | cons y ys ih =>
    intro bv
    rw [List.foldl_cons]
    rcases ih (max bv y) with ⟨h1, h2⟩
    refine ⟨le_trans (le_max_left bv y) h1, ?_⟩
    intro z hz
    rcases List.mem_cons.mp hz with rfl | h
    · exact le_trans (le_max_right bv z) h1
    · exact h2 z h

theorem np_max_is_max (l : List ℚ) (c : ℚ) (hc : np_max l = some c) :
    ∀ x ∈ l, x ≤ c := by
  match l with
  | [] => simp [np_max] at hc
  | x :: xs =>
    simp only [np_max, Option.some_inj] at hc
    rw [np_scan_snd] at hc
    intro y hy
    rcases List.mem_cons.mp hy with h | h
    · subst h; rw [← hc]; exact (foldl_max_bounds xs y).1
    · rw [← hc]
      exact (foldl_max_bounds xs x).2 y h

/-! ### Characterisation of the selection loop -/

theorem process_predictions_ok_eq (thr : ℚ) (sequence : PSeq) :
    ∀ rows bs ts, process_predictions thr sequence rows = Except.ok (bs, ts) →
      bs = (rows.filter (accepts EClass.B_cell_positive thr)).map (mk_call sequence) ∧
      ts = (rows.filter (accepts EClass.T_cell_MHC_positive thr)).map (mk_call sequence) := by
  intro rows
  induction rows with
  | nil =>
    intro bs ts h
    simp only [process_predictions, Except.ok.injEq, Prod.mk.injEq] at h
    simp [← h.1, ← h.2]
  | cons row rest ih =>
    intro bs ts h
    obtain ⟨probs, s, e⟩ := row
    cases hk : np_argmax probs with
    | none => simp [process_predictions, hk] at h
    | some k =>
      cases hm : np_max probs with
      | none => simp [process_predictions, hk, hm] at h
      | some c =>
        cases hl : idx_to_class k with
        | none => simp [process_predictions, hk, hm, hl] at h
        | some lbl =>
          cases hrest : process_predictions thr sequence rest with
          | error e2 => simp [process_predictions, hk, hm, hl, hrest] at h
          | ok pr =>
            obtain ⟨bs', ts'⟩ := pr
            simp only [process_predictions, hk, hm, hl, hrest] at h
            obtain ⟨hb', ht'⟩ := ih bs' ts' hrest
            have haccB : accepts EClass.B_cell_positive thr (probs, s, e) =
                (decide (lbl = EClass.B_cell_positive) && decide (thr ≤ c)) := by
              simp [accepts, hk, hm, hl]
            have haccT : accepts EClass.T_cell_MHC_positive thr (probs, s, e) =
                (decide (lbl = EClass.T_cell_MHC_positive) && decide (thr ≤ c)) := by
              simp [accepts, hk, hm, hl]
            have hcall : mk_call sequence (probs, s, e) =
                ⟨py_slice sequence s e, c, pos_range_str s e⟩ := by
              simp [mk_call, hm]
            by_cases hth : thr ≤ c
            · rw [if_pos hth] at h
              cases lbl with
              | B_cell_positive =>
                simp only [Except.ok.injEq, Prod.mk.injEq] at h
                rw [← h.1, ← h.2]
                constructor
                · rw [List.filter_cons, if_pos (by simp [haccB, hth]), List.map_cons,
                    hcall, hb']
                · rw [List.filter_cons, if_neg (by simp [haccT]), ht']
              | T_cell_MHC_positive =>
                simp only [Except.ok.injEq, Prod.mk.injEq] at h
                rw [← h.1, ← h.2]
                constructor
                · rw [List.filter_cons, if_neg (by simp [haccB]), hb']
                · rw [List.filter_cons, if_pos (by simp [haccT, hth]), List.map_cons,
                    hcall, ht']
              | B_cell_negative =>
                simp only [Except.ok.injEq, Prod.mk.injEq] at h
                rw [← h.1, ← h.2]
                constructor
                · rw [List.filter_cons, if_neg (by simp [haccB]), hb']
                · rw [List.filter_cons, if_neg (by simp [haccT]), ht']
              | T_cell_MHC_negative =>
                simp only [Except.ok.injEq, Prod.mk.injEq] at h
                rw [← h.1, ← h.2]
                constructor
                · rw [List.filter_cons, if_neg (by simp [haccB]), hb']
                · rw [List.filter_cons, if_neg (by simp [haccT]), ht']
            · rw [if_neg hth] at h
              simp only [Except.ok.injEq, Prod.mk.injEq] at h
              rw [← h.1, ← h.2]
              constructor
              · rw [List.filter_cons, if_neg (by simp [haccB, hth]), hb']
              · rw [List.filter_cons, if_neg (by simp [haccT, hth]), ht']

theorem process_predictions_ok_iff (thr : ℚ) (sequence : PSeq) :
    ∀ rows, (∃ pr, process_predictions thr sequence rows = Except.ok pr) ↔
      ∀ r ∈ rows, row_ok r := by
  intro rows
  induction rows with
  | nil => simp [process_predictions]
  | cons row rest ih =>
    obtain ⟨probs, s, e⟩ := row
    constructor
    · rintro ⟨pr, h⟩ r hr
      cases hk : np_argmax probs with
      | none => simp [process_predictions, hk] at h
      | some k =>
        cases hm : np_max probs with
        | none => simp [process_predictions, hk, hm] at h
        | some c =>
          cases hl : idx_to_class k with
          | none => simp [process_predictions, hk, hm, hl] at h
          | some lbl =>
            rcases List.mem_cons.mp hr with rfl | hr'
            · exact ⟨k, c, lbl, hk, hm, hl⟩
            · cases hrest : process_predictions thr sequence rest with
              | error e2 => simp [process_predictions, hk, hm, hl, hrest] at h
              | ok pr' => exact ih.mp ⟨pr', hrest⟩ r hr'
    · intro hall
      obtain ⟨k, c, lbl, hk, hm, hl⟩ := hall _ (List.mem_cons_self _ _)
      obtain ⟨⟨bs', ts'⟩, hrest⟩ :=
        ih.mpr (fun r hr => hall r (List.mem_cons_of_mem _ hr))
      refine ⟨?_, ?_⟩
      · exact if thr ≤ c then
          (match lbl with
           | EClass.B_cell_positive =>
             (⟨py_slice sequence s e, c, pos_range_str s e⟩ :: bs', ts')
           | EClass.T_cell_MHC_positive =>
             (bs', ⟨py_slice sequence s e, c, pos_range_str s e⟩ :: ts')
           | _ => (bs', ts'))
        else (bs', ts')
      · simp only [process_predictions, hk, hm, hl, hrest]
        by_cases hth : thr ≤ c
        · rw [if_pos hth, if_pos hth]
          cases lbl <;> rfl
        · rw [if_neg hth, if_neg hth]

/-! ### Properties of the stable sort -/

theorem mem_insort (le : α → α → Bool) (x y : α) :
    ∀ l, y ∈ insort le x l ↔ y = x ∨ y ∈ l := by
  intro l
  induction l with
  | nil => simp [insort]
  | cons z zs ih =>
    by_cases h : le x z
    · simp [insort, h]
    · simp only [insort, if_neg h, List.mem_cons, ih]
      tauto

theorem length_insort (le : α → α → Bool) (x : α) :
    ∀ l, (insort le x l).length = l.length + 1 := by
  intro l
  induction l with
  | nil => rfl
  | cons z zs ih =>
    by_cases h : le x z
    · simp [insort, h]
    · simp [insort, h, ih]

theorem mem_stable_sort (le : α → α → Bool) (y : α) :
    ∀ l, y ∈ stable_sort le l ↔ y ∈ l := by
  intro l
  induction l with
  | nil => simp [stable_sort]
  | cons z zs ih => simp [stable_sort, mem_insort, ih]

theorem length_stable_sort (le : α → α → Bool) :
    ∀ l : List α, (stable_sort le l).length = l.length := by
  intro l
  induction l with
  | nil => rfl
  | cons z zs ih => simp [stable_sort, length_insort, ih]

theorem pairwise_insort (le : α → α → Bool) (T : α → α → Prop)
    (htot : ∀ a b, le a b = true ∨ le b a = true)
    (htrans : ∀ a b c, le a b = true → le b c = true → le a c = true)
    (x : α) :
    ∀ l, l.Pairwise (fun a b => le a b = true ∧ (le b a = true → T a b)) →
      (∀ y ∈ l, T x y) →
      (insort le x l).Pairwise (fun a b => le a b = true ∧ (le b a = true → T a b)) := by
  intro l
  induction l with
  | nil => intro _ _; simp [insort]
  | cons z zs ih =>
    intro hp hT
    rcases List.pairwise_cons.mp hp with ⟨hz, hzs⟩
    by_cases h : le x z
    · rw [insort, if_pos h]
      refine List.pairwise_cons.mpr ⟨?_, hp⟩
      intro y hy
      rcases List.mem_cons.mp hy with rfl | hy'
      · exact ⟨h, fun _ => hT y (List.mem_cons_self _ _)⟩
      · have hzy := hz y hy'
        exact ⟨htrans x z y h hzy.1, fun _ => hT y (List.mem_cons_of_mem _ hy')⟩
    · rw [insort, if_neg h]
      refine List.pairwise_cons.mpr ⟨?_, ?_⟩
      · intro y hy
        rcases (mem_insort le x y zs).mp hy with rfl | hy'
        · rcases htot y z with hxz | hzx
          · exact absurd hxz h
          · exact ⟨hzx, fun hxz2 => absurd hxz2 h⟩
        · exact hz y hy'
      · exact ih hzs (fun y hy => hT y (List.mem_cons_of_mem _ hy))

theorem pairwise_stable_sort (le : α → α → Bool) (T : α → α → Prop)
    (htot : ∀ a b, le a b = true ∨ le b a = true)
    (htrans : ∀ a b c, le a b = true → le b c = true → le a c = true) :
    ∀ l, l.Pairwise T →
      (stable_sort le l).Pairwise (fun a b => le a b = true ∧ (le b a = true → T a b)) := by
  intro l
  induction l with
  | nil => intro _; simp [stable_sort]
  | cons z zs ih =>
    intro hp
    rcases List.pairwise_cons.mp hp with ⟨hz, hzs⟩
    exact pairwise_insort le T htot htrans z (stable_sort le zs) (ih hzs)
      (fun y hy => hz y ((mem_stable_sort le y zs).mp hy))

/-! ### Window enumeration -/

theorem py_range_one (stop : Nat) : py_range stop 1 = List.range stop := by
  unfold py_range
  simp

theorem window_positions_fst (len win : Nat) :
    (window_positions len win 1).map Prod.fst = List.range (len - win + 1) := by
  unfold window_positions
  rw [py_range_one, List.map_map]
  simp [Function.comp_def]

theorem length_window_positions_one (len win : Nat) :
    (window_positions len win 1).length = len - win + 1 := by
  unfold window_positions
  rw [py_range_one]
  simp

theorem mem_window_positions (len win step : Nat) (p : Nat × Nat)
    (h : p ∈ window_positions len win step) : p.2 = p.1 + win := by
  unfold window_positions at h
  rcases List.mem_map.mp h with ⟨i, _, hi⟩
  rw [← hi]

theorem window_positions_pairwise (len win : Nat) :
    (window_positions len win 1).Pairwise (fun p q => p.1 < q.1) := by
  unfold window_positions
  rw [py_range_one]
  refine List.pairwise_map.mpr ?_
  exact List.pairwise_lt_range _

theorem zip_pairwise_snd (R : β → β → Prop) :
    ∀ (l₁ : List α) (l₂ : List β), l₂.Pairwise R →
      (l₁.zip l₂).Pairwise (fun a b => R a.2 b.2) := by
  intro l₁
  induction l₁ with
  | nil => intro l₂ _; simp
  | cons x xs ih =>
    intro l₂ hp
    cases l₂ with
    | nil => simp
    | cons y ys =>
      rcases List.pairwise_cons.mp hp with ⟨hy, hys⟩
      refine List.pairwise_cons.mpr ⟨?_, ih ys hys⟩
      intro p hp'
      exact hy p.2 (List.of_mem_zip hp').2

/-! ### Shape of successful predictions -/

theorem predict_epitopes_final_state (model : Model) (P : Predictor)
    (sequence : PSeq) (threshold : Option ℚ) :
    (predict_epitopes model P sequence threshold).2 = P := by
  unfold predict_epitopes
  cases hres : sliding_window_prediction model (predict_epitopes_call_state P threshold)
      (clean_sequence sequence) with
  | error e =>
    cases threshold with
    | none =>
      simp only [predict_epitopes_call_state] at hres
      simp only [predict_epitopes_call_state, hres]
    | some t =>
      simp only [predict_epitopes_call_state] at hres
      simp only [predict_epitopes_call_state, hres]
  | ok pr =>
    obtain ⟨bs, ts⟩ := pr
    cases threshold with
    | none =>
      simp only [predict_epitopes_call_state] at hres
      simp only [predict_epitopes_call_state, hres]
    | some t =>
      simp only [predict_epitopes_call_state] at hres
      simp only [predict_epitopes_call_state, hres]

theorem predict_epitopes_fst (model : Model) (P : Predictor)
    (sequence : PSeq) (threshold : Option ℚ) :
    (predict_epitopes model P sequence threshold).1 =
      match sliding_window_prediction model (predict_epitopes_call_state P threshold)
          (clean_sequence sequence) with
      | Except.error e => Except.error e
      | Except.ok (bs, ts) =>
        Except.ok (sort_epitopes bs, sort_epitopes ts) := by
  unfold predict_epitopes
  cases hres : sliding_window_prediction model (predict_epitopes_call_state P threshold)
      (clean_sequence sequence) with
  | error e => simp [hres]
  | ok pr => obtain ⟨bs, ts⟩ := pr; simp [hres]

theorem sliding_ok_shape (model : Model) (P : Predictor) (sequence : PSeq)
    (bs ts : List Epitope)
    (h : sliding_window_prediction model P sequence = Except.ok (bs, ts)) :
    (bs = [] ∧ ts = []) ∨
    ∃ pp : List (List ℚ),
      model ((window_positions sequence.length P.window_size P.step_size).map
          (fun p => encode_sequence (py_slice sequence p.1 p.2))) = Except.ok pp ∧
      bs = ((pp.zip (window_positions sequence.length P.window_size P.step_size)).filter
          (accepts EClass.B_cell_positive P.confidence_threshold)).map (mk_call sequence) ∧
      ts = ((pp.zip (window_positions sequence.length P.window_size P.step_size)).filter
          (accepts EClass.T_cell_MHC_positive P.confidence_threshold)).map (mk_call sequence) := by
  unfold sliding_window_prediction at h
  by_cases hlen : sequence.length < P.window_size
  · rw [if_pos hlen] at h
    simp only [Except.ok.injEq, Prod.mk.injEq] at h
    exact Or.inl ⟨h.1.symm, h.2.symm⟩
  · rw [if_neg hlen] at h
    simp only at h
    by_cases hempty : ((window_positions sequence.length P.window_size P.step_size).map
        (fun p => encode_sequence (py_slice sequence p.1 p.2))).isEmpty
    · rw [if_pos hempty] at h
      simp only [Except.ok.injEq, Prod.mk.injEq] at h
      exact Or.inl ⟨h.1.symm, h.2.symm⟩
    · rw [if_neg hempty] at h
      cases hmod : model ((window_positions sequence.length P.window_size P.step_size).map
          (fun p => encode_sequence (py_slice sequence p.1 p.2))) with
      | error e => rw [hmod] at h; exact absurd h (by simp)
      | ok pp =>
        rw [hmod] at h
        exact Or.inr ⟨pp, rfl, process_predictions_ok_eq _ _ _ _ _ h⟩

/-! ### Markup generation -/

theorem write_range_cons (c : Char) (cs : List Char) (a b : Nat) (m : Char) :
    write_range (c :: cs) a b m =
      (if a = 0 ∧ 0 < b then m else c) :: write_range cs (a - 1) (b - 1) m := rfl

theorem length_write_range (l : List Char) :
    ∀ a b m, (write_range l a b m).length = l.length := by
  induction l with
  | nil => intro a b m; rfl
  | cons c cs ih => intro a b m; simp [write_range_cons, ih]

theorem getElem?_write_range (l : List Char) :
    ∀ a b m i, (write_range l a b m)[i]? =
      if a ≤ i ∧ i < b ∧ i < l.length then some m else l[i]? := by
  induction l with
  | nil => intro a b m i; simp [write_range]
  | cons c cs ih =>
    intro a b m i
    rw [write_range_cons]
    cases i with
    | zero =>
      by_cases h : a = 0 ∧ 0 < b
      · rw [if_pos h]
        simp only [List.getElem?_cons_zero]
        rw [if_pos (by simp; omega)]
      · rw [if_neg h]
        simp only [List.getElem?_cons_zero]
        rw [if_neg (by simp; omega)]
    | succ i =>
      simp only [List.getElem?_cons_succ]
      rw [ih (a - 1) (b - 1) m i]
      have hiff : (a - 1 ≤ i ∧ i < b - 1 ∧ i < cs.length) ↔
          (a ≤ i + 1 ∧ i + 1 < b ∧ i + 1 < (c :: cs).length) := by
        simp only [List.length_cons]
        omega
      by_cases h : a - 1 ≤ i ∧ i < b - 1 ∧ i < cs.length
      · rw [if_pos h, if_pos (hiff.mp h)]
      · rw [if_neg h, if_neg (fun hh => h (hiff.mpr hh))]

theorem covered_nil (i : Nat) : ¬ covered [] i := by
  rintro ⟨ep, h, _⟩
  simp at h

theorem covered_cons (ep : Epitope) (rest : List Epitope) (i : Nat) :
    covered (ep :: rest) i ↔
      (∃ a b : Nat, parse_pos_range ep.pos_range = some (a, b) ∧
        a - 1 ≤ i ∧ i < b) ∨ covered rest i := by
  constructor
  · rintro ⟨ep', hmem, a, b, hp, h1, h2⟩
    rcases List.mem_cons.mp hmem with rfl | hmem'
    · exact Or.inl ⟨a, b, hp, h1, h2⟩
    · exact Or.inr ⟨ep', hmem', a, b, hp, h1, h2⟩
  · rintro (⟨a, b, hp, h1, h2⟩ | ⟨ep', hmem', a, b, hp, h1, h2⟩)
    · exact ⟨ep, List.mem_cons_self _ _, a, b, hp, h1, h2⟩
    · exact ⟨ep', List.mem_cons_of_mem _ hmem', a, b, hp, h1, h2⟩

theorem markup_loop_shape (marker : Char) :
    ∀ (eps : List Epitope) (markup : List Char),
      (∀ ep ∈ eps, ∃ a b : Nat, parse_pos_range ep.pos_range = some (a, b)) →
      ∃ m, markup_loop marker eps markup = Except.ok m ∧
        m.length = markup.length ∧
        ∀ i, (covered eps i → i < markup.length → m[i]? = some marker) ∧
          (¬ covered eps i → m[i]? = markup[i]?) := by
  intro eps
  induction eps with
  | nil =>
    intro markup _
    refine ⟨markup, rfl, rfl, ?_⟩
    intro i
    exact ⟨fun hc => absurd hc (covered_nil i), fun _ => rfl⟩
  | cons ep rest ih =>
    intro markup hall
    obtain ⟨a, b, hp⟩ := hall ep (List.mem_cons_self _ _)
    have hrest : ∀ e2 ∈ rest, ∃ a b : Nat, parse_pos_range e2.pos_range = some (a, b) :=
      fun e2 he2 => hall e2 (List.mem_cons_of_mem _ he2)
    obtain ⟨m, hok, hlen, hpt⟩ :=
      ih (write_range markup (a - 1) (min b markup.length) marker) hrest
    refine ⟨m, ?_, ?_, ?_⟩
    · simp only [markup_loop, hp]
      exact hok
    · rw [hlen, length_write_range]
    · intro i
      have hw := getElem?_write_range markup (a - 1) (min b markup.length) marker i
      constructor
      · intro hc hi
        rcases (covered_cons ep rest i).mp hc with ⟨a', b', hp', h1, h2⟩ | hcr
        · rw [hp] at hp'
          obtain ⟨rfl, rfl⟩ : a = a' ∧ b = b' := by
            have := Option.some_inj.mp hp'
            exact ⟨congrArg Prod.fst this, congrArg Prod.snd this⟩
          by_cases hcr : covered rest i
          · exact (hpt i).1 hcr (by rw [length_write_range]; exact hi)
          · rw [(hpt i).2 hcr, hw, if_pos (by constructor <;> omega)]
        · exact (hpt i).1 hcr (by rw [length_write_range]; exact hi)
      · intro hc
        have hcr : ¬ covered rest i :=
          fun h => hc ((covered_cons ep rest i).mpr (Or.inr h))
        have hne : ¬ (a - 1 ≤ i ∧ i < min b markup.length ∧ i < markup.length) := by
          rintro ⟨h1, h2, h3⟩
          exact hc ((covered_cons ep rest i).mpr (Or.inl ⟨a, b, hp, h1, by omega⟩))
        rw [(hpt i).2 hcr, hw, if_neg hne]

/-! ### Encoding and cleaning -/

theorem dict_get_not_canonical (c : Char)
    (hcan : c.toUpper ∉ canonical_amino_acids) :
    dict_get amino_acid_to_num c.toUpper 0 = 0 := by
  by_cases hx : c.toUpper = 'X'
  · rw [hx]; rfl
  · have hkeys : amino_acid_to_num.map Prod.fst = canonical_amino_acids ++ ['X'] := rfl
    have hnone : amino_acid_to_num.find? (fun p => p.1 == c.toUpper) = none := by
      rw [List.find?_eq_none]
      intro p hp hbeq
      have hkey : c.toUpper ∈ amino_acid_to_num.map Prod.fst :=
        List.mem_map.mpr ⟨p, hp, by simpa using hbeq⟩
      rw [hkeys] at hkey
      rcases List.mem_append.mp hkey with h | h
      · exact hcan h
      · simp only [List.mem_singleton] at h
        exact hx h
    unfold dict_get
    rw [hnone]

theorem length_encode_sequence (s : PSeq) :
    (encode_sequence s).length = s.length := by
  unfold encode_sequence
  simp

theorem clean_sequence_eq_filter_map (s : PSeq) :
    clean_sequence s =
      (s.filter (fun c => dict_mem amino_acid_to_num c.toUpper)).map Char.toUpper := by
  unfold clean_sequence
  induction s with
  | nil => rfl
  | cons c cs ih =>
    by_cases h : dict_mem amino_acid_to_num c.toUpper
    · simp [h, ih]
    · simp [h, ih]

/-! ### The per-sequence loop of the web layer -/

theorem predict_loop_cons (model : Model) (P : Predictor) (n : List Char)
    (s : PSeq) (rest : List (List Char × PSeq)) :
    predict_loop model P ((n, s) :: rest) =
      match (predict_epitopes model P s none).1 with
      | Except.ok (bs, ts) =>
        ((n, (s, bs, ts)) :: (predict_loop model P rest).1,
          (predict_loop model P rest).2)
      | Except.error _ =>
        ((predict_loop model P rest).1, n :: (predict_loop model P rest).2) := by
  have hstate := predict_epitopes_final_state model P s none
  have hunf : predict_loop model P ((n, s) :: rest) =
      (match predict_epitopes model P s none with
      | (Except.ok (bs, ts), P2) =>
        ((n, (s, bs, ts)) :: (predict_loop model P2 rest).1,
          (predict_loop model P2 rest).2)
      | (Except.error _, P2) =>
        ((predict_loop model P2 rest).1, n :: (predict_loop model P2 rest).2)) := rfl
  rw [hunf]
  cases hp : predict_epitopes model P s none with
  | mk res P2 =>
    have hP : P2 = P := by rw [hp] at hstate; exact hstate
    subst hP
    cases res with
    | error err => simp [hp]
    | ok pr =>
      obtain ⟨bs, ts⟩ := pr
      simp [hp]

theorem predict_loop_append (model : Model) (P : Predictor) :
    ∀ xs ys, predict_loop model P (xs ++ ys) =
      ((predict_loop model P xs).1 ++ (predict_loop model P ys).1,
       (predict_loop model P xs).2 ++ (predict_loop model P ys).2) := by
  intro xs
  induction xs with
  | nil => intro ys; simp [predict_loop]
  | cons x rest ih =>
    intro ys
    obtain ⟨n, s⟩ := x
    rw [List.cons_append, predict_loop_cons, predict_loop_cons]
    cases hres : (predict_epitopes model P s none).1 with
    | error e => simp [ih ys]
    | ok pr =>
      obtain ⟨bs, ts⟩ := pr
      simp [ih ys]

/-! ### Small helpers about the call state -/

theorem call_state_window_size (P : Predictor) (thr : Option ℚ) :
    (predict_epitopes_call_state P thr).window_size = P.window_size := by
  cases thr <;> rfl

theorem call_state_step_size (P : Predictor) (thr : Option ℚ) :
    (predict_epitopes_call_state P thr).step_size = P.step_size := by
  cases thr <;> rfl

theorem accepts_iff (cls : EClass) (thr : ℚ) (row : List ℚ × (Nat × Nat)) :
    accepts cls thr row = true ↔
      ∃ k c, np_argmax row.1 = some k ∧ np_max row.1 = some c ∧
        row.1.get? k = some c ∧ thr ≤ c ∧ idx_to_class k = some cls := by
  unfold accepts
  cases hk : np_argmax row.1 with
  | none =>
    simp only [Bool.false_eq_true, false_iff]
    rintro ⟨k, c, hk', _⟩
    exact absurd hk' (by simp)
  | some k =>
    cases hm : np_max row.1 with
    | none =>
      simp only [Bool.false_eq_true, false_iff]
      rintro ⟨k', c, _, hm', _⟩
      exact absurd hm' (by simp)
    | some c =>
      simp only [Bool.and_eq_true, decide_eq_true_eq]
      constructor
      · rintro ⟨hcls, hth⟩
        exact ⟨k, c, rfl, rfl, np_argmax_get row.1 k c hk hm, hth, hcls⟩
      · rintro ⟨k', c', hk', hm', _, hth, hcls⟩
        obtain rfl : k = k' := by simpa using hk'
        obtain rfl : c = c' := by simpa using hm'
        exact ⟨hcls, hth⟩

theorem accepts_disjoint (thr : ℚ) (row : List ℚ × (Nat × Nat)) :
    ¬ (accepts EClass.B_cell_positive thr row = true ∧
       accepts EClass.T_cell_MHC_positive thr row = true) := by
  rintro ⟨hB, hT⟩
  obtain ⟨k, c, hk, _, _, _, hclsB⟩ := (accepts_iff _ thr row).mp hB
  obtain ⟨k', c', hk', _, _, _, hclsT⟩ := (accepts_iff _ thr row).mp hT
  rw [hk] at hk'
  obtain rfl : k = k' := by simpa using hk'
  rw [hclsB] at hclsT
  simp at hclsT

theorem accepts_mono (cls : EClass) (t1 t2 : ℚ) (hle : t1 ≤ t2)
    (row : List ℚ × (Nat × Nat)) (h : accepts cls t2 row = true) :
    accepts cls t1 row = true := by
  obtain ⟨k, c, hk, hm, hg, hth, hcls⟩ := (accepts_iff cls t2 row).mp h
  exact (accepts_iff cls t1 row).mpr ⟨k, c, hk, hm, hg, le_trans hle hth, hcls⟩

/-! ### Claim theorems -/

/-- C1: for every window's probability vector, an epitope call is emitted
iff the maximal (arg-max) probability reaches the threshold and the
arg-max class is B-cell-positive or T-cell-positive; a negative arg-max
produces no call even above threshold; an accepted call carries the
sliced substring, the arg-max probability as confidence, and the window's
position range, and a window feeds exactly one of the two buckets. -/
theorem C1_decision_rule (thr : ℚ) (sequence : PSeq)
    (rows : List (List ℚ × (Nat × Nat))) (bs ts : List Epitope)
    (h : process_predictions thr sequence rows = Except.ok (bs, ts)) :
    bs = (rows.filter (accepts EClass.B_cell_positive thr)).map (mk_call sequence) ∧
    ts = (rows.filter (accepts EClass.T_cell_MHC_positive thr)).map (mk_call sequence) ∧
    (∀ row, accepts EClass.B_cell_positive thr row = true ↔
      ∃ k c, np_argmax row.1 = some k ∧ np_max row.1 = some c ∧
        row.1.get? k = some c ∧ thr ≤ c ∧
        idx_to_class k = some EClass.B_cell_positive) ∧
    (∀ row, accepts EClass.T_cell_MHC_positive thr row = true ↔
      ∃ k c, np_argmax row.1 = some k ∧ np_max row.1 = some c ∧
        row.1.get? k = some c ∧ thr ≤ c ∧
        idx_to_class k = some EClass.T_cell_MHC_positive) ∧
    (∀ row, ¬ (accepts EClass.B_cell_positive thr row = true ∧
        accepts EClass.T_cell_MHC_positive thr row = true)) ∧
    (∀ ep ∈ bs ++ ts, ∃ row ∈ rows,
      np_max row.1 = some ep.confidence ∧
      ep.epitope = py_slice sequence row.2.1 row.2.2 ∧
      ep.pos_range = pos_range_str row.2.1 row.2.2) := by
  obtain ⟨hb, ht⟩ := process_predictions_ok_eq thr sequence rows bs ts h
  refine ⟨hb, ht, fun row => accepts_iff _ thr row, fun row => accepts_iff _ thr row,
    fun row => accepts_disjoint thr row, ?_⟩
  intro ep hep
  rcases List.mem_append.mp hep with hepb | hept
  · rw [hb] at hepb
    obtain ⟨row, hrow, hmk⟩ := List.mem_map.mp hepb
    have hrow' := List.mem_of_mem_filter hrow
    have hacc := List.of_mem_filter hrow
    obtain ⟨k, c, _, hm, _, _, _⟩ := (accepts_iff _ thr row).mp hacc
    refine ⟨row, hrow', ?_, ?_, ?_⟩
    · rw [← hmk]; simp [mk_call, hm]
    · rw [← hmk]; rfl
    · rw [← hmk]; rfl
  · rw [ht] at hept
    obtain ⟨row, hrow, hmk⟩ := List.mem_map.mp hept
    have hrow' := List.mem_of_mem_filter hrow
    have hacc := List.of_mem_filter hrow
    obtain ⟨k, c, _, hm, _, _, _⟩ := (accepts_iff _ thr row).mp hacc
    refine ⟨row, hrow', ?_, ?_, ?_⟩
    · rw [← hmk]; simp [mk_call, hm]
    · rw [← hmk]; rfl
    · rw [← hmk]; rfl

/-- C1 witness: a concrete batch of two windows, one accepted into the
B-cell bucket, one rejected. -/
theorem C1_witness :
    process_predictions (mkRat 1 2) (List.replicate 21 'A')
        [([mkRat 1 10, mkRat 7 10, mkRat 1 10, mkRat 1 10], (0, 20)),
         ([mkRat 6 10, mkRat 2 10, mkRat 1 10, mkRat 1 10], (1, 21))] =
      Except.ok ([⟨List.replicate 20 'A', mkRat 7 10, pos_range_str 0 20⟩], []) ∧
    ([⟨List.replicate 20 'A', mkRat 7 10, pos_range_str 0 20⟩] : List Epitope) =
      ([([mkRat 1 10, mkRat 7 10, mkRat 1 10, mkRat 1 10], (0, 20)),
        ([mkRat 6 10, mkRat 2 10, mkRat 1 10, mkRat 1 10], (1, 21))].filter
          (accepts EClass.B_cell_positive (mkRat 1 2))).map
        (mk_call (List.replicate 21 'A')) := by
  have h : process_predictions (mkRat 1 2) (List.replicate 21 'A')
      [([mkRat 1 10, mkRat 7 10, mkRat 1 10, mkRat 1 10], (0, 20)),
       ([mkRat 6 10, mkRat 2 10, mkRat 1 10, mkRat 1 10], (1, 21))] =
      Except.ok ([⟨List.replicate 20 'A', mkRat 7 10, pos_range_str 0 20⟩], []) := by
    decide
  exact ⟨h, (C1_decision_rule (mkRat 1 2) (List.replicate 21 'A') _ _ _ h).1⟩

/-- C2: with step size 1, the window start offsets are exactly
0, 1, ..., L - W in strictly increasing order, so the classifier batch
has exactly max(0, L - W + 1) rows; and a sequence shorter than the
window yields empty B-cell and T-cell lists for every classifier, i.e.
without the classifier being consulted. -/
theorem C2_window_enumeration (model : Model) (P : Predictor) (sequence : PSeq)
    (hstep : P.step_size = 1) :
    (sequence.length < P.window_size →
      sliding_window_prediction model P sequence = Except.ok ([], [])) ∧
    ((window_positions sequence.length P.window_size 1).map Prod.fst =
      List.range (sequence.length - P.window_size + 1)) ∧
    ((window_positions sequence.length P.window_size 1).map Prod.fst).Pairwise (· < ·) ∧
    ((if sequence.length < P.window_size then 0 else
        ((window_positions sequence.length P.window_size P.step_size).length : ℤ)) =
      max 0 ((sequence.length : ℤ) - (P.window_size : ℤ) + 1)) := by
  refine ⟨?_, window_positions_fst _ _, ?_, ?_⟩
  · intro h
    unfold sliding_window_prediction
    rw [if_pos h]
  · rw [window_positions_fst]
    exact List.pairwise_lt_range _
  · rw [hstep]
    by_cases h : sequence.length < P.window_size
    · rw [if_pos h]
      omega
    · rw [if_neg h, length_window_positions_one]
      omega

/-- C2 witness: a sequence of length 5 with the default window 20 yields
empty lists, and a length-21 sequence has exactly 2 windows. -/
theorem C2_witness :
    default_predictor.step_size = 1 ∧
    sliding_window_prediction (fun _ => Except.error "never called")
      default_predictor (List.replicate 5 'A') = Except.ok ([], []) ∧
    ((if (List.replicate 21 'A').length < default_predictor.window_size then 0 else
        ((window_positions (List.replicate 21 'A').length
          default_predictor.window_size default_predictor.step_size).length : ℤ)) =
      max 0 (((List.replicate 21 'A').length : ℤ) -
        (default_predictor.window_size : ℤ) + 1)) :=
  ⟨rfl,
   (C2_window_enumeration (fun _ => Except.error "never called") default_predictor
     (List.replicate 5 'A') rfl).1 (by decide),
   (C2_window_enumeration (fun _ => Except.error "never called") default_predictor
     (List.replicate 21 'A') rfl).2.2.2⟩

/-- C3: every epitope call returned by `predict_epitopes` has position
range string `"\x7bstart+1\x7d-\x7bend\x7d"` for its window's 0-based span
`[start, start + window_size)`, it parses back to the 1-based closed
interval `(start+1, start+window_size)`, and the parsed interval spans
exactly `window_size` residues. -/
theorem C3_position_ranges (model : Model) (P : Predictor) (sequence : PSeq)
    (threshold : Option ℚ) (bs ts : List Epitope) (ep : Epitope)
    (h : (predict_epitopes model P sequence threshold).1 = Except.ok (bs, ts))
    (hep : ep ∈ bs ∨ ep ∈ ts) :
    ∃ start_pos : Nat,
      ep.pos_range = pos_range_str start_pos (start_pos + P.window_size) ∧
      parse_pos_range ep.pos_range =
        some (start_pos + 1, start_pos + P.window_size) ∧
      (((start_pos : ℤ) + P.window_size) - ((start_pos : ℤ) + 1) + 1 =
        (P.window_size : ℤ)) := by
  rw [predict_epitopes_fst] at h
  cases hres : sliding_window_prediction model (predict_epitopes_call_state P threshold)
      (clean_sequence sequence) with
  | error e => rw [hres] at h; simp at h
  | ok pr =>
    obtain ⟨bs0, ts0⟩ := pr
    rw [hres] at h
    simp only [Except.ok.injEq, Prod.mk.injEq] at h
    obtain ⟨hbs, hts⟩ := h
    have hep0 : ep ∈ bs0 ∨ ep ∈ ts0 := by
      rcases hep with h1 | h1
      · rw [← hbs] at h1
        exact Or.inl ((mem_stable_sort conf_desc ep bs0).mp h1)
      · rw [← hts] at h1
        exact Or.inr ((mem_stable_sort conf_desc ep ts0).mp h1)
    rcases sliding_ok_shape _ _ _ _ _ hres with ⟨h1, h2⟩ | ⟨pp, _, hbs0, hts0⟩
    · subst h1; subst h2; simp at hep0
    · have hrow : ∃ row : List ℚ × (Nat × Nat),
          row.2 ∈ window_positions (clean_sequence sequence).length
            (predict_epitopes_call_state P threshold).window_size
            (predict_epitopes_call_state P threshold).step_size ∧
          ep = mk_call (clean_sequence sequence) row := by
        rcases hep0 with h1 | h1
        · rw [hbs0] at h1
          obtain ⟨row, hrw, hmk⟩ := List.mem_map.mp h1
          exact ⟨row, (List.of_mem_zip (List.mem_of_mem_filter hrw)).2, hmk.symm⟩
        · rw [hts0] at h1
          obtain ⟨row, hrw, hmk⟩ := List.mem_map.mp h1
          exact ⟨row, (List.of_mem_zip (List.mem_of_mem_filter hrw)).2, hmk.symm⟩
      obtain ⟨row, hpos, hmk⟩ := hrow
      have hw := mem_window_positions _ _ _ _ hpos
      rw [call_state_window_size] at hw
      refine ⟨row.2.1, ?_, ?_, by ring⟩
      · rw [hmk]
        unfold mk_call
        rw [hw]
      · rw [hmk]
        unfold mk_call
        simp only
        rw [hw, parse_pos_range_str]

/-- C3 witness: a length-20 sequence with one accepted window; its
position range is 1-20 and parses to a 20-residue interval. -/
theorem C3_witness :
    (predict_epitopes (fun _ => Except.ok [[0, 1, 0, 0]]) default_predictor
        (List.replicate 20 'A') none).1 =
      Except.ok ([⟨List.replicate 20 'A', 1, pos_range_str 0 20⟩], []) ∧
    ∃ start_pos : Nat,
      (⟨List.replicate 20 'A', 1, pos_range_str 0 20⟩ : Epitope).pos_range =
        pos_range_str start_pos (start_pos + default_predictor.window_size) ∧
      parse_pos_range (⟨List.replicate 20 'A', 1, pos_range_str 0 20⟩ : Epitope).pos_range =
        some (start_pos + 1, start_pos + default_predictor.window_size) ∧
      (((start_pos : ℤ) + default_predictor.window_size) - ((start_pos : ℤ) + 1) + 1 =
        (default_predictor.window_size : ℤ)) := by
  have h : (predict_epitopes (fun _ => Except.ok [[0, 1, 0, 0]]) default_predictor
      (List.replicate 20 'A') none).1 =
      Except.ok ([⟨List.replicate 20 'A', 1, pos_range_str 0 20⟩], []) := by decide
  exact ⟨h, C3_position_ranges _ default_predictor _ none _ _ _ h
    (Or.inl (List.mem_singleton.mpr rfl))⟩

theorem start_of_mk_call (sequence : PSeq) (row : List ℚ × (Nat × Nat)) :
    start_of (mk_call sequence row) = row.2.1 + 1 := by
  simp [start_of, mk_call, parse_pos_range_str]

theorem window_positions_pairwise_any (len win s : Nat) :
    (window_positions len win s).Pairwise (fun p q => p.1 < q.1) := by
  cases s with
  | zero =>
    have : py_range (len - win + 1) 0 = [] := by
      unfold py_range
      simp
    unfold window_positions
    rw [this]
    simp
  | succ s =>
    unfold window_positions py_range
    refine List.pairwise_map.mpr (List.pairwise_map.mpr ?_)
    refine (List.pairwise_lt_range _).imp ?_
    intro a b hab
    exact (Nat.mul_lt_mul_right (Nat.succ_pos s)).mpr hab

theorem sorted_with_stable_ties (l : List Epitope)
    (hl : l.Pairwise (fun x y => start_of x < start_of y)) :
    (sort_epitopes l).Pairwise (fun x y => y.confidence ≤ x.confidence ∧
      (x.confidence = y.confidence → start_of x < start_of y)) := by
  have htot : ∀ a b : Epitope, conf_desc a b = true ∨ conf_desc b a = true := by
    intro a b
    unfold conf_desc
    rcases le_total b.confidence a.confidence with h | h
    · exact Or.inl (decide_eq_true h)
    · exact Or.inr (decide_eq_true h)
  have htrans : ∀ a b c : Epitope, conf_desc a b = true → conf_desc b c = true →
      conf_desc a c = true := by
    intro a b c h1 h2
    unfold conf_desc at h1 h2 ⊢
    exact decide_eq_true (le_trans (of_decide_eq_true h2) (of_decide_eq_true h1))
  have hp := pairwise_stable_sort conf_desc (fun x y => start_of x < start_of y)
    htot htrans l hl
  refine hp.imp ?_
  intro a b hab
  refine ⟨of_decide_eq_true hab.1, fun hc => hab.2 ?_⟩
  unfold conf_desc
  exact decide_eq_true (le_of_eq hc)

/-- C4: both returned buckets are sorted by non-increasing confidence,
and entries of equal confidence appear in ascending window start order
(the order of first occurrence). -/
theorem C4_ranked_buckets (model : Model) (P : Predictor) (sequence : PSeq)
    (threshold : Option ℚ) (bs ts : List Epitope)
    (h : (predict_epitopes model P sequence threshold).1 = Except.ok (bs, ts)) :
    bs.Pairwise (fun x y => y.confidence ≤ x.confidence ∧
      (x.confidence = y.confidence → start_of x < start_of y)) ∧
    ts.Pairwise (fun x y => y.confidence ≤ x.confidence ∧
      (x.confidence = y.confidence → start_of x < start_of y)) := by
  rw [predict_epitopes_fst] at h
  cases hres : sliding_window_prediction model (predict_epitopes_call_state P threshold)
      (clean_sequence sequence) with
  | error e => rw [hres] at h; simp at h
  | ok pr =>
    obtain ⟨bs0, ts0⟩ := pr
    rw [hres] at h
    simp only [Except.ok.injEq, Prod.mk.injEq] at h
    obtain ⟨hbs, hts⟩ := h
    have hposw := window_positions_pairwise_any (clean_sequence sequence).length
      (predict_epitopes_call_state P threshold).window_size
      (predict_epitopes_call_state P threshold).step_size
    have key : ∀ (pp : List (List ℚ)) (cls : EClass),
        (((pp.zip (window_positions (clean_sequence sequence).length
            (predict_epitopes_call_state P threshold).window_size
            (predict_epitopes_call_state P threshold).step_size)).filter
          (accepts cls (predict_epitopes_call_state P threshold).confidence_threshold)).map
            (mk_call (clean_sequence sequence))).Pairwise
          (fun x y => start_of x < start_of y) := by
      intro pp cls
      refine List.pairwise_map.mpr ?_
      refine List.Pairwise.sublist (List.filter_sublist _) ?_
      refine (zip_pairwise_snd (fun (p q : Nat × Nat) => p.1 < q.1) pp _ hposw).imp ?_
      intro a b hab
      rw [start_of_mk_call, start_of_mk_call]
      omega
    rcases sliding_ok_shape _ _ _ _ _ hres with ⟨h1, h2⟩ | ⟨pp, _, hbs0, hts0⟩
    · subst h1; subst h2
      rw [← hbs, ← hts]
      simp [sort_epitopes, stable_sort]
    · constructor
      · rw [← hbs, hbs0]
        exact sorted_with_stable_ties _ (key pp EClass.B_cell_positive)
      · rw [← hts, hts0]
        exact sorted_with_stable_ties _ (key pp EClass.T_cell_MHC_positive)

/-- C4 witness: a length-21 sequence with two windows both accepted; the
B-cell bucket is sorted descending with the higher confidence first. -/
theorem C4_witness :
    (predict_epitopes (fun _ => Except.ok [[0, mkRat 6 10, 0, 0], [0, mkRat 9 10, 0, 0]])
        default_predictor (List.replicate 21 'A') none).1 =
      Except.ok
        ([⟨List.replicate 20 'A', mkRat 9 10, pos_range_str 1 21⟩,
          ⟨List.replicate 20 'A', mkRat 6 10, pos_range_str 0 20⟩], []) ∧
    ([⟨List.replicate 20 'A', mkRat 9 10, pos_range_str 1 21⟩,
      ⟨List.replicate 20 'A', mkRat 6 10, pos_range_str 0 20⟩] : List Epitope).Pairwise
      (fun x y => y.confidence ≤ x.confidence ∧
        (x.confidence = y.confidence → start_of x < start_of y)) := by
  have h : (predict_epitopes
      (fun _ => Except.ok [[0, mkRat 6 10, 0, 0], [0, mkRat 9 10, 0, 0]])
      default_predictor (List.replicate 21 'A') none).1 =
      Except.ok
        ([⟨List.replicate 20 'A', mkRat 9 10, pos_range_str 1 21⟩,
          ⟨List.replicate 20 'A', mkRat 6 10, pos_range_str 0 20⟩], []) := by decide
  exact ⟨h, (C4_ranked_buckets _ default_predictor _ none _ _ h).1⟩

theorem sliding_mono (model : Model) (P1 P2 : Predictor) (sequence : PSeq)
    (hw : P1.window_size = P2.window_size) (hs : P1.step_size = P2.step_size)
    (hc : P1.confidence_threshold ≤ P2.confidence_threshold)
    (b2 t2 : List Epitope)
    (h : sliding_window_prediction model P2 sequence = Except.ok (b2, t2)) :
    ∃ b1 t1, sliding_window_prediction model P1 sequence = Except.ok (b1, t1) ∧
      b2.Sublist b1 ∧ t2.Sublist t1 := by
  unfold sliding_window_prediction at h ⊢
  rw [hw, hs]
  by_cases hlen : sequence.length < P2.window_size
  · rw [if_pos hlen] at h ⊢
    simp only [Except.ok.injEq, Prod.mk.injEq] at h
    exact ⟨[], [], rfl, by rw [← h.1], by rw [← h.2]⟩
  · rw [if_neg hlen] at h ⊢
    simp only at h ⊢
    by_cases hempty : ((window_positions sequence.length P2.window_size P2.step_size).map
        (fun p => encode_sequence (py_slice sequence p.1 p.2))).isEmpty
    · rw [if_pos hempty] at h ⊢
      simp only [Except.ok.injEq, Prod.mk.injEq] at h
      exact ⟨[], [], rfl, by rw [← h.1], by rw [← h.2]⟩
    · rw [if_neg hempty] at h ⊢
      cases hmod : model ((window_positions sequence.length P2.window_size P2.step_size).map
          (fun p => encode_sequence (py_slice sequence p.1 p.2))) with
      | error e => rw [hmod] at h; exact absurd h (by simp)
      | ok pp =>
        rw [hmod] at h
        have h' : process_predictions P2.confidence_threshold sequence
            (pp.zip (window_positions sequence.length P2.window_size P2.step_size)) =
            Except.ok (b2, t2) := h
        have hok1 : ∃ pr, process_predictions P1.confidence_threshold sequence
            (pp.zip (window_positions sequence.length P2.window_size P2.step_size)) =
            Except.ok pr := by
          rw [process_predictions_ok_iff]
          rw [← process_predictions_ok_iff P2.confidence_threshold sequence]
          exact ⟨(b2, t2), h'⟩
        obtain ⟨⟨b1, t1⟩, h1⟩ := hok1
        obtain ⟨hb1, ht1⟩ := process_predictions_ok_eq _ _ _ _ _ h1
        obtain ⟨hb2, ht2⟩ := process_predictions_ok_eq _ _ _ _ _ h'
        refine ⟨b1, t1, h1, ?_, ?_⟩
        · rw [hb1, hb2]
          exact List.Sublist.map _ (List.monotone_filter_right _
            (fun r => accepts_mono _ _ _ hc r))
        · rw [ht1, ht2]
          exact List.Sublist.map _ (List.monotone_filter_right _
            (fun r => accepts_mono _ _ _ hc r))

/-- C5: for the same sequence and classifier, the calls returned at a
higher threshold are a subset of those returned at a lower threshold,
bucket by bucket; in particular the counts can only shrink as the
threshold rises. -/
theorem C5_threshold_monotone (model : Model) (P : Predictor) (sequence : PSeq)
    (t1 t2 : ℚ) (hle : t1 ≤ t2) (b2 ts2 : List Epitope)
    (h2 : (predict_epitopes model P sequence (some t2)).1 = Except.ok (b2, ts2)) :
    ∃ b1 ts1,
      (predict_epitopes model P sequence (some t1)).1 = Except.ok (b1, ts1) ∧
      (∀ x ∈ b2, x ∈ b1) ∧ (∀ x ∈ ts2, x ∈ ts1) ∧
      b2.length ≤ b1.length ∧ ts2.length ≤ ts1.length := by
  rw [predict_epitopes_fst] at h2
  cases hres : sliding_window_prediction model (predict_epitopes_call_state P (some t2))
      (clean_sequence sequence) with
  | error e => rw [hres] at h2; simp at h2
  | ok pr =>
    obtain ⟨b0, t0⟩ := pr
    rw [hres] at h2
    simp only [Except.ok.injEq, Prod.mk.injEq] at h2
    obtain ⟨hb2, ht2⟩ := h2
    obtain ⟨b1, t1, h1, hsb, hst⟩ := sliding_mono model
      (predict_epitopes_call_state P (some t1)) (predict_epitopes_call_state P (some t2))
      (clean_sequence sequence) rfl rfl (by simpa [predict_epitopes_call_state] using hle)
      b0 t0 hres
    refine ⟨sort_epitopes b1, sort_epitopes t1, ?_, ?_, ?_, ?_, ?_⟩
    · rw [predict_epitopes_fst, h1]
    · intro x hx
      rw [← hb2] at hx
      exact (mem_stable_sort conf_desc x b1).mpr
        (hsb.subset ((mem_stable_sort conf_desc x b0).mp hx))
    · intro x hx
      rw [← ht2] at hx
      exact (mem_stable_sort conf_desc x t1).mpr
        (hst.subset ((mem_stable_sort conf_desc x t0).mp hx))
    · rw [← hb2]
      unfold sort_epitopes
      rw [length_stable_sort, length_stable_sort]
      exact hsb.length_le
    · rw [← ht2]
      unfold sort_epitopes
      rw [length_stable_sort, length_stable_sort]
      exact hst.length_le

/-- C5 witness: with fixed classifier outputs, raising the threshold from
0.5 to 0.95 shrinks the returned B-cell bucket from one call to none. -/
theorem C5_witness :
    (mkRat 1 2 ≤ mkRat 95 100) ∧
    (predict_epitopes (fun _ => Except.ok [[0, mkRat 8 10, 0, 0]])
        default_predictor (List.replicate 20 'A') (some (mkRat 95 100))).1 =
      Except.ok ([], []) ∧
    ∃ b1 ts1,
      (predict_epitopes (fun _ => Except.ok [[0, mkRat 8 10, 0, 0]])
          default_predictor (List.replicate 20 'A') (some (mkRat 1 2))).1 =
        Except.ok (b1, ts1) ∧
      (∀ x ∈ ([] : List Epitope), x ∈ b1) ∧ (∀ x ∈ ([] : List Epitope), x ∈ ts1) ∧
      ([] : List Epitope).length ≤ b1.length ∧ ([] : List Epitope).length ≤ ts1.length := by
  have h2 : (predict_epitopes (fun _ => Except.ok [[0, mkRat 8 10, 0, 0]])
      default_predictor (List.replicate 20 'A') (some (mkRat 95 100))).1 =
      Except.ok ([], []) := by decide
  exact ⟨by decide, h2,
    C5_threshold_monotone _ default_predictor _ (mkRat 1 2) (mkRat 95 100)
      (by decide) _ _ h2⟩

/-- C6 counterexample: `predict_epitopes` called with the out-of-range
threshold 1.5 does not fail; it completes and returns (empty) result
lists, leaving the predictor state as before. -/
theorem C6_counterexample :
    predict_epitopes (fun _ => Except.error "never called") default_predictor
        [] (some (mkRat 3 2)) =
      (Except.ok ([], []), default_predictor) := by decide

/-- C6 (amended): only `set_confidence_threshold` validates the range:
it accepts a threshold in [0, 1] and raises `ValueError` otherwise
without touching the state, while `predict_epitopes` applies a per-call
override without any validation: calling it with override `t` behaves
exactly like a predictor whose stored threshold is `t`, for any `t`,
and always restores the original state. -/
theorem C6_threshold_validation (P : Predictor) (t : ℚ) :
    ((0 ≤ t ∧ t ≤ 1) →
      set_confidence_threshold P t =
        Except.ok { P with confidence_threshold := t }) ∧
    (¬ (0 ≤ t ∧ t ≤ 1) →
      set_confidence_threshold P t =
        Except.error "Threshold must be between 0.0 and 1.0") ∧
    (∀ (model : Model) (sequence : PSeq),
      predict_epitopes model P sequence (some t) =
        ((predict_epitopes model { P with confidence_threshold := t } sequence none).1,
          P)) := by
  refine ⟨?_, ?_, ?_⟩
  · intro h
    unfold set_confidence_threshold
    rw [if_pos h]
  · intro h
    unfold set_confidence_threshold
    rw [if_neg h]
  · intro model sequence
    have h2 := predict_epitopes_final_state model P sequence (some t)
    have h1 : (predict_epitopes model P sequence (some t)).1 =
        (predict_epitopes model { P with confidence_threshold := t } sequence none).1 := by
      rw [predict_epitopes_fst, predict_epitopes_fst]
      rfl
    calc predict_epitopes model P sequence (some t)
        = ((predict_epitopes model P sequence (some t)).1,
           (predict_epitopes model P sequence (some t)).2) := rfl
      _ = ((predict_epitopes model { P with confidence_threshold := t } sequence none).1,
           P) := by rw [h1, h2]

/-- C6 witness: the validating setter rejects 1.5 and leaves the stored
threshold untouched. -/
theorem C6_witness :
    ¬ ((0 : ℚ) ≤ mkRat 3 2 ∧ (mkRat 3 2 : ℚ) ≤ 1) ∧
    set_confidence_threshold default_predictor (mkRat 3 2) =
      Except.error "Threshold must be between 0.0 and 1.0" :=
  ⟨by decide, (C6_threshold_validation default_predictor (mkRat 3 2)).2.1 (by decide)⟩

/-- C7 (code bug in the sense of the spec requirement): the per-call
threshold override is applied by writing it into the shared predictor
field: the state under which `sliding_window_prediction` runs during the
call (`predict_epitopes_call_state`) carries the override 0.9 in
`confidence_threshold`, not the configured 0.5 — the spec demands a
call-scoped parameter instead of this save/mutate/restore pattern. -/
theorem C7_shared_state_mutated :
    (predict_epitopes_call_state default_predictor (some (mkRat 9 10))).confidence_threshold =
      mkRat 9 10 ∧
    default_predictor.confidence_threshold = mkRat 1 2 ∧
    (predict_epitopes_call_state default_predictor
        (some (mkRat 9 10))).confidence_threshold ≠
      default_predictor.confidence_threshold ∧
    (∀ (model : Model) (sequence : PSeq),
      (predict_epitopes model default_predictor sequence (some (mkRat 9 10))).1 =
        match sliding_window_prediction model
            (predict_epitopes_call_state default_predictor (some (mkRat 9 10)))
            (clean_sequence sequence) with
        | Except.error e => Except.error e
        | Except.ok (bs, ts) =>
          Except.ok (sort_epitopes bs, sort_epitopes ts)) :=
  ⟨rfl, rfl, by decide, fun model sequence => predict_epitopes_fst model _ sequence _⟩

/-- C8 counterexample: the cleaning step of `predict_epitopes` drops a
character (`Z`) whose uppercase form is not a key of the residue
dictionary, instead of encoding it as the unknown code: a length-1 input
cleans to length 0, and a length-20 sequence containing one `Z` yields no
window at all (the classifier would have accepted it), because the
character was removed positionally. -/
theorem C8_counterexample :
    clean_sequence ['Z'] = [] ∧
    (predict_epitopes (fun _ => Except.ok [[0, 1, 0, 0]]) default_predictor
        ('Z' :: List.replicate 19 'A') none).1 = Except.ok ([], []) := by
  constructor
  · decide
  · decide

/-- C8 (amended): `encode_sequence` itself is total and deterministic,
yields exactly one code per character, maps the 20 canonical amino acids
(after uppercasing) to pairwise distinct non-zero codes and every other
character to the unknown code 0 without error; but the cleaning step of
`predict_epitopes` drops (rather than encodes) every character whose
uppercase form is not among the 21 dictionary keys. -/
theorem C8_encoding (s : PSeq) (c : Char) :
    (encode_sequence s).length = s.length ∧
    ((canonical_amino_acids.map
        (fun a => dict_get amino_acid_to_num a 0)).Nodup ∧
      ∀ a ∈ canonical_amino_acids, dict_get amino_acid_to_num a 0 ≠ 0) ∧
    (c.toUpper ∉ canonical_amino_acids →
      dict_get amino_acid_to_num c.toUpper 0 = 0) ∧
    clean_sequence s =
      (s.filter (fun a => dict_mem amino_acid_to_num a.toUpper)).map Char.toUpper := by
  refine ⟨length_encode_sequence s, ⟨by decide, by decide⟩,
    dict_get_not_canonical c, clean_sequence_eq_filter_map s⟩

/-- C8 witness: `z` encodes to 16 after uppercasing is not applicable —
`z` uppercases to `Z`, which is outside the canonical alphabet and
encodes to 0, while the cleaning step drops it. -/
theorem C8_witness :
    ('z'.toUpper ∉ canonical_amino_acids) ∧
    dict_get amino_acid_to_num 'z'.toUpper 0 = 0 ∧
    clean_sequence ['a', 'z'] =
      ((['a', 'z'].filter
        (fun a => dict_mem amino_acid_to_num a.toUpper)).map Char.toUpper) :=
  ⟨by decide, (C8_encoding ['a', 'z'] 'z').2.2.1 (by decide),
    (C8_encoding ['a', 'z'] 'z').2.2.2⟩

theorem covered_perm (eps eps' : List Epitope) (hperm : eps'.Perm eps) (i : Nat) :
    covered eps' i ↔ covered eps i := by
  unfold covered
  constructor
  · rintro ⟨ep, hmem, a, b, hp, h1, h2⟩
    exact ⟨ep, hperm.mem_iff.mp hmem, a, b, hp, h1, h2⟩
  · rintro ⟨ep, hmem, a, b, hp, h1, h2⟩
    exact ⟨ep, hperm.mem_iff.mpr hmem, a, b, hp, h1, h2⟩

/-- C9: for calls whose position range has the selector's form, the
markup has exactly the length of the input sequence, every position
covered by some call's inclusive 1-based range carries the type's marker
(`E` for B-cell, `T` otherwise), every other position stays a dot, and
the output does not depend on the order of the calls. -/
theorem C9_markup (sequence : PSeq) (eps : List Epitope) (epitope_type : List Char)
    (h : ∀ ep ∈ eps, ∃ s e : Nat, ep.pos_range = pos_range_str s e) :
    ∃ m, get_sequence_markup sequence eps epitope_type = Except.ok m ∧
      m.length = sequence.length ∧
      (∀ i, i < sequence.length →
        (covered eps i → m[i]? =
          some (if epitope_type = ['B', '-', 'c', 'e', 'l', 'l'] then 'E' else 'T')) ∧
        (¬ covered eps i → m[i]? = some '.')) ∧
      (∀ eps', eps'.Perm eps →
        get_sequence_markup sequence eps' epitope_type =
          get_sequence_markup sequence eps epitope_type) := by
  have hparse : ∀ l : List Epitope, (∀ ep ∈ l, ∃ s e : Nat, ep.pos_range = pos_range_str s e) →
      ∀ ep ∈ l, ∃ a b : Nat, parse_pos_range ep.pos_range = some (a, b) := by
    intro l hl ep hep
    obtain ⟨s, e, hse⟩ := hl ep hep
    exact ⟨s + 1, e, by rw [hse, parse_pos_range_str]⟩
  obtain ⟨m, hok, hlen, hpt⟩ := markup_loop_shape
    (if epitope_type = ['B', '-', 'c', 'e', 'l', 'l'] then 'E' else 'T') eps
    (sequence.map (fun _ => '.')) (hparse eps h)
  have hinit : ∀ i, i < sequence.length →
      (sequence.map (fun _ => '.'))[i]? = some '.' := by
    intro i hi
    rw [List.getElem?_map, List.getElem?_eq_getElem hi]
    rfl
  refine ⟨m, hok, by rw [hlen, List.length_map], ?_, ?_⟩
  · intro i hi
    constructor
    · intro hc
      exact (hpt i).1 hc (by rw [List.length_map]; exact hi)
    · intro hc
      rw [(hpt i).2 hc]
      exact hinit i hi
  · intro eps' hperm
    have h' : ∀ ep ∈ eps', ∃ s e : Nat, ep.pos_range = pos_range_str s e :=
      fun ep hep => h ep (hperm.mem_iff.mp hep)
    obtain ⟨m', hok', hlen', hpt'⟩ := markup_loop_shape
      (if epitope_type = ['B', '-', 'c', 'e', 'l', 'l'] then 'E' else 'T') eps'
      (sequence.map (fun _ => '.')) (hparse eps' h')
    have hmm : m' = m := by
      apply List.ext_getElem?
      intro i
      by_cases hcov : covered eps i
      · by_cases hi : i < sequence.length
        · rw [(hpt' i).1 ((covered_perm eps eps' hperm i).mpr hcov)
              (by rw [List.length_map]; exact hi),
            (hpt i).1 hcov (by rw [List.length_map]; exact hi)]
        · have h1 : m'[i]? = none := by
            rw [List.getElem?_eq_none]
            rw [hlen', List.length_map]
            omega
          have h2 : m[i]? = none := by
            rw [List.getElem?_eq_none]
            rw [hlen, List.length_map]
            omega
          rw [h1, h2]
      · rw [(hpt' i).2 (fun hc => hcov ((covered_perm eps eps' hperm i).mp hc)),
          (hpt i).2 hcov]
    show markup_loop (if epitope_type = ['B', '-', 'c', 'e', 'l', 'l'] then 'E' else 'T')
        eps' (sequence.map (fun _ => '.')) =
      markup_loop (if epitope_type = ['B', '-', 'c', 'e', 'l', 'l'] then 'E' else 'T')
        eps (sequence.map (fun _ => '.'))
    rw [hok', hok, hmm]

/-- C9 witness: a five-residue sequence with one call covering positions
2..4 marks exactly those positions with `E`. -/
theorem C9_witness :
    (∀ ep ∈ ([⟨[], 1, pos_range_str 1 4⟩] : List Epitope),
      ∃ s e : Nat, ep.pos_range = pos_range_str s e) ∧
    ∃ m, get_sequence_markup ['A', 'B', 'C', 'D', 'F']
        [⟨[], 1, pos_range_str 1 4⟩] ['B', '-', 'c', 'e', 'l', 'l'] = Except.ok m ∧
      m.length = (['A', 'B', 'C', 'D', 'F'] : List Char).length ∧
      (∀ i, i < (['A', 'B', 'C', 'D', 'F'] : List Char).length →
        (covered [⟨[], 1, pos_range_str 1 4⟩] i → m[i]? =
          some (if (['B', '-', 'c', 'e', 'l', 'l'] : List Char) =
              ['B', '-', 'c', 'e', 'l', 'l'] then 'E' else 'T')) ∧
        (¬ covered [⟨[], 1, pos_range_str 1 4⟩] i → m[i]? = some '.')) ∧
      (∀ eps', eps'.Perm [⟨[], 1, pos_range_str 1 4⟩] →
        get_sequence_markup ['A', 'B', 'C', 'D', 'F'] eps' ['B', '-', 'c', 'e', 'l', 'l'] =
          get_sequence_markup ['A', 'B', 'C', 'D', 'F'] [⟨[], 1, pos_range_str 1 4⟩]
            ['B', '-', 'c', 'e', 'l', 'l']) := by
  have h : ∀ ep ∈ ([⟨[], 1, pos_range_str 1 4⟩] : List Epitope),
      ∃ s e : Nat, ep.pos_range = pos_range_str s e := by
    intro ep hep
    rw [List.mem_singleton] at hep
    exact ⟨1, 4, by rw [hep]⟩
  exact ⟨h, C9_markup ['A', 'B', 'C', 'D', 'F'] [⟨[], 1, pos_range_str 1 4⟩]
    ['B', '-', 'c', 'e', 'l', 'l'] h⟩

/-- C10: if the classifier errors on a sequence's batch, that sequence's
prediction fails with the error propagated (no partial lists), and the
surrounding loop records the failure between the failures of the earlier
and later sequences while the other sequences' results are exactly those
obtained without the failing sequence. -/
theorem C10_failure_isolation (model : Model) (P : Predictor)
    (pre post : List (List Char × PSeq)) (n : List Char) (s : PSeq) (e : String)
    (hw : P.window_size ≤ (clean_sequence s).length)
    (hne : window_positions (clean_sequence s).length P.window_size P.step_size ≠ [])
    (hbatch : model ((window_positions (clean_sequence s).length P.window_size
        P.step_size).map
        (fun p => encode_sequence (py_slice (clean_sequence s) p.1 p.2))) =
      Except.error e) :
    (predict_epitopes model P s none).1 = Except.error e ∧
    (predict_loop model P (pre ++ (n, s) :: post)).1 =
      (predict_loop model P (pre ++ post)).1 ∧
    (predict_loop model P (pre ++ (n, s) :: post)).2 =
      (predict_loop model P pre).2 ++ n :: (predict_loop model P post).2 := by
  have herr : (predict_epitopes model P s none).1 = Except.error e := by
    rw [predict_epitopes_fst]
    have hslide : sliding_window_prediction model (predict_epitopes_call_state P none)
        (clean_sequence s) = Except.error e := by
      show sliding_window_prediction model P (clean_sequence s) = Except.error e
      unfold sliding_window_prediction
      rw [if_neg (by omega)]
      simp only
      rw [if_neg (by
        simp only [List.isEmpty_eq_true, List.map_eq_nil_iff]
        exact hne)]
      rw [hbatch]
    rw [hslide]
  refine ⟨herr, ?_, ?_⟩
  · simp only [predict_loop_append, predict_loop_cons, herr]
  · simp only [predict_loop_append, predict_loop_cons, herr]

/-- C10 witness: a failing classifier for a 20-residue sequence; the
short sequences before and after it are processed as without it. -/
theorem C10_witness :
    (default_predictor.window_size ≤ (clean_sequence (List.replicate 20 'A')).length) ∧
    ((fun _ => Except.error "boom" : Model)
        ((window_positions (clean_sequence (List.replicate 20 'A')).length
          default_predictor.window_size default_predictor.step_size).map
          (fun p => encode_sequence
            (py_slice (clean_sequence (List.replicate 20 'A')) p.1 p.2))) =
      Except.error "boom") ∧
    (predict_epitopes (fun _ => Except.error "boom") default_predictor
        (List.replicate 20 'A') none).1 = Except.error "boom" ∧
    (predict_loop (fun _ => Except.error "boom") default_predictor
        ([(['p'], List.replicate 3 'C')] ++
          (['n'], List.replicate 20 'A') :: [(['q'], List.replicate 4 'D')])).1 =
      (predict_loop (fun _ => Except.error "boom") default_predictor
        ([(['p'], List.replicate 3 'C')] ++ [(['q'], List.replicate 4 'D')])).1 ∧
    (predict_loop (fun _ => Except.error "boom") default_predictor
        ([(['p'], List.replicate 3 'C')] ++
          (['n'], List.replicate 20 'A') :: [(['q'], List.replicate 4 'D')])).2 =
      (predict_loop (fun _ => Except.error "boom") default_predictor
          [(['p'], List.replicate 3 'C')]).2 ++
        ['n'] :: (predict_loop (fun _ => Except.error "boom") default_predictor
          [(['q'], List.replicate 4 'D')]).2 := by
  refine ⟨by decide, rfl, ?_⟩
  exact C10_failure_isolation (fun _ => Except.error "boom") default_predictor
    [(['p'], List.replicate 3 'C')] [(['q'], List.replicate 4 'D')]
    ['n'] (List.replicate 20 'A') "boom" (by decide) (by decide) rfl
